import Mathlib

/-!
Shallow embedding of `src/RedisTaggedCache.js` (the tag-based cache
invalidation engine for a Redis-like key-value store).

The backing store is modelled as an explicit state (`Store`): a list of
primary keys present in the store, an association list of reference sets
(set key to membership list), and a flag recording whether the primitive
store-wide flush was invoked.  External collaborators that live outside the
repository (the `sha1` npm package, the key prefixes of the store client
and of the tag set, the resolved tag namespace, and the transport layer)
are supplied through a `Config` record; in particular `Config.delFail` is
an oracle saying which `store.del` invocations fail at the transport level
(the only failure mode the claims under study exercise).

Each method of `RedisTaggedCache` becomes a pure function from a `Config`
and a `Store` to a triple: the trace of store operations it issues
(`List Op`), an optional error (`Option Err`, the arguments of the failed
`del`), and the resulting store state.  Promise concurrency (`Promise.all`,
bluebird `Promise.map`) is embedded as sequential execution in program
order in which every started branch runs to completion — faithful to the
JS semantics that `Promise.all` never cancels already-started promises —
and the bounded-concurrency limit of `Promise.map` is carried as an
explicit parameter.
-/

namespace RedisTaggedCache

/-- `const REFERENCE_KEY_FOREVER = 'forever_ref'`. -/
def REFERENCE_KEY_FOREVER : String := "forever_ref"

/-- `const REFERENCE_KEY_STANDARD = 'standard_ref'`. -/
def REFERENCE_KEY_STANDARD : String := "standard_ref"

/-- The chunk size `1000` hardcoded in `deleteValues` (`chunkArray(members, 1000)`). -/
def CHUNK_SIZE : Nat := 1000

/-- The bluebird concurrency option `{ concurrency: 100 }` hardcoded in `deleteValues`. -/
def DELETE_CONCURRENCY : Nat := 100

/-- External collaborators and configuration of one `RedisTaggedCache` instance:
`keyPrefix` is `this.store.options.keyPrefix`, `tagPrefix` is `this.tagPrefix`,
`sha1` is the external `sha1` npm package (an abstract stable string digest),
`ns` is the namespace string resolved by `this.tags.getNamespace()`, and
`delFail` is the transport oracle: `delFail ks = true` means the store call
`del` with argument list `ks` rejects. -/
structure Config where
  keyPrefix : String
  tagPrefix : String
  sha1 : String → String
  ns : String
  delFail : List String → Bool

/-- The state of the backing Redis-like store: the primary keys present, the
reference sets (association list from set key to membership, in insertion
order as Redis `smembers` may return any order), and whether the primitive
store-wide flush (`super.flush`) has been invoked. -/
structure Store where
  primary : List String
  sets : List (String × List String)
  flushed : Bool
  deriving DecidableEq, Repr

/-- One store operation as issued over the wire by the embedded code.
`pipelineSadd` is a single `this.store.pipeline()` round trip carrying a
list of `sadd(referenceKey, member)` commands; `primSet`, `primIncrement`,
`primDecrement` and `primFlush` are the primitive operations delegated to
the parent class (`super.set` / `super.increment` / `super.decrement` /
`super.flush`), external collaborators whose own key handling is out of
scope here. -/
inductive Op where
  | pipelineSadd : List (String × String) → Op
  | smembers : String → Op
  | del : List String → Op
  | primSet : String → String → Option Int → Op
  | primIncrement : String → Int → Op
  | primDecrement : String → Int → Op
  | primFlush : Op
  deriving DecidableEq, Repr

/-- An error: the argument list of the `store.del` invocation that failed. -/
abbrev Err := List String

/-- Membership of a reference set: Redis `smembers` returns the members of
the set, and the empty list when the key is absent. -/
def lookupSet (sets : List (String × List String)) (k : String) : List String :=
  match sets.find? (fun p => p.1 == k) with
  | some p => p.2
  | none => []

/-- `smembers` against the store state. -/
def Store.smembers (st : Store) (k : String) : List String :=
  lookupSet st.sets k

/-- Redis `SADD`: add `m` to the set named `k`, creating the set if absent,
leaving membership unchanged if `m` is already a member (set-union add). -/
def saddOne (sets : List (String × List String)) (k m : String) :
    List (String × List String) :=
  match sets with
  | [] => [(k, [m])]
  | (k', ms) :: rest =>
    if k' = k then (k', if m ∈ ms then ms else ms ++ [m]) :: rest
    else (k', ms) :: saddOne rest k m

/-- `sadd` against the store state. -/
def Store.sadd (st : Store) (k m : String) : Store :=
  { st with sets := saddOne st.sets k m }

/-- Redis `DEL ks...`: every named key disappears from the store, whether it
holds a primary value or a set; deleting an absent key is a no-op. -/
def Store.del (st : Store) (ks : List String) : Store :=
  { st with
    primary := st.primary.filter (fun p => decide (¬ p ∈ ks))
    sets := st.sets.filter (fun q => decide (¬ q.1 ∈ ks)) }

/-- A key is absent from the store: it is neither a primary key nor the name
of a reference set. -/
def Store.keyAbsent (st : Store) (k : String) : Prop :=
  ¬ k ∈ st.primary ∧ ∀ p ∈ st.sets, p.1 ≠ k

instance (st : Store) (k : String) : Decidable (st.keyAbsent k) := by
  unfold Store.keyAbsent; infer_instance

/-- JS `String.prototype.split` with a one-character separator, over the
character list: the list of maximal separator-free substrings, empty
substrings included (`''.split('|')` is `['']`, `'|'.split('|')` is
`['', '']`); the result is never the empty list. -/
def splitChars (sep : Char) : List Char → List (List Char)
  | [] => [[]]
  | c :: rest =>
    let r := splitChars sep rest
    if c = sep then [] :: r
    else
      match r with
      | [] => [[c]]
      | g :: gs => (c :: g) :: gs

/-- `namespace.split('|')`. -/
def splitNs (ns : String) : List String :=
  (splitChars '|' ns.data).map (fun cs => String.mk cs)

/-- `referenceKey(segment, suffix)`:
`` `${this.tagPrefix}${segment}:${suffix}` ``. -/
def referenceKey (cfg : Config) (segment suffix : String) : String :=
  cfg.tagPrefix ++ segment ++ ":" ++ suffix

/-- The per-segment reference keys computed in `deleteKeysByReference`:
`namespace.split('|').map(segment => this.referenceKey(segment, reference))`. -/
def referenceKeysOf (cfg : Config) (reference : String) : List String :=
  (splitNs cfg.ns).map (fun seg => referenceKey cfg seg reference)

/-- The fully-qualified cache key built in `pushKeys`:
`` `${this.store.options.keyPrefix}${sha1(namespace)}:${key}` ``. -/
def fullKey (cfg : Config) (ns key : String) : String :=
  cfg.keyPrefix ++ cfg.sha1 ns ++ ":" ++ key

/-- The chunking loop of `chunkArray` for a positive chunk size `m + 1`:
`output.push(array.slice(i, i + chunkSize))` for `i = 0, m+1, 2(m+1), …`,
expressed as a take/drop recursion.  The first argument is recursion fuel;
every call keeps it at least the list length, so the fuel-exhausted branch
is unreachable (it returns the rest as one chunk, preserving the loop's
"concatenation of chunks is the input" shape even off the fuel budget). -/
def chunksGo (m : Nat) : Nat → List String → List (List String)
  | _, [] => []
  | 0, l => [l]
  | fuel + 1, a :: l => (a :: l).take (m + 1) :: chunksGo m fuel (l.drop m)

/-- `chunkArray(array, chunkSize)`.  The source's `for` loop never terminates
when `chunkSize` is `0` and the array is nonempty; the code only ever calls
it with chunk size `1000`, so the embedding returns `[]` for size `0`. -/
def chunkArray (l : List String) (n : Nat) : List (List String) :=
  match n with
  | 0 => []
  | Nat.succ m => chunksGo m l.length l

/-- The recursion behind `jsSetDedup`, with fuel (kept at least the list
length, so the fuel-exhausted branch is unreachable): keep the first
occurrence of each element, drop the later duplicates. -/
def dedupGo : Nat → List String → List String
  | _, [] => []
  | 0, l => l
  | fuel + 1, x :: xs => x :: dedupGo fuel (xs.filter (fun y => y != x))

/-- JS `Array.from(new Set(members))`: deduplicate keeping the first
occurrence of each element, preserving order. -/
def jsSetDedup (l : List String) : List String :=
  dedupGo l.length l

/-- `pushKeys(namespace, key, reference)`: build the fully-qualified cache
key, open one pipeline, `sadd` it into the reference set of every segment of
the namespace (one `sadd` per segment, duplicates included, in segment
order), and execute the pipeline as a single round trip.  It performs no
other store operation. -/
def pushKeys (cfg : Config) (ns key reference : String) (st : Store) :
    List Op × Store :=
  let fk := fullKey cfg ns key
  let adds := (splitNs ns).map (fun seg => (referenceKey cfg seg reference, fk))
  ([Op.pipelineSadd adds], adds.foldl (fun s p => s.sadd p.1 p.2) st)

/-- `pushStandardKeys(namespace, key)`. -/
def pushStandardKeys (cfg : Config) (ns key : String) (st : Store) :
    List Op × Store :=
  pushKeys cfg ns key REFERENCE_KEY_STANDARD st

/-- `pushForeverKeys(namespace, key)`. -/
def pushForeverKeys (cfg : Config) (ns key : String) (st : Store) :
    List Op × Store :=
  pushKeys cfg ns key REFERENCE_KEY_FOREVER st

/-- JS truthiness of the optional numeric `ttl` argument: `undefined`/`null`
(here `none`) and `0` are falsy, any other number is truthy.  (`NaN`, also
falsy in JS, has no counterpart in the integer model.) -/
def jsTruthy : Option Int → Bool
  | none => false
  | some n => n != 0

/-- bluebird `Promise.map(chunks, chunk => this.store.del(chunk),
{ concurrency })`: issue one `del` per chunk.  The embedding executes the
chunks sequentially in order; `concurrency` is the bound on simultaneously
in-flight deletes, carried through untouched since a sequential schedule
never exceeds it.  Every chunk is executed (started promises are never
cancelled); a failed `del` leaves the store unchanged; the first failure in
order is reported. -/
def promiseMapDel (cfg : Config) (concurrency : Nat)
    (chunks : List (List String)) (st : Store) :
    List Op × Option Err × Store :=
  match chunks with
  | [] => ([], none, st)
  | c :: rest =>
    let st1 := if cfg.delFail c then st else st.del c
    let r := promiseMapDel cfg concurrency rest st1
    (Op.del c :: r.1,
      (if cfg.delFail c then some c else none).orElse (fun _ => r.2.1), r.2.2)

/-- `deleteValues(referenceKey)`: read the membership of the reference set,
deduplicate it (`Array.from(new Set(members))` — note the subsequent
`if (!members)` check in the source is dead code, since `Array.from` always
returns an array and arrays are truthy in JS, the empty array included),
chunk it into chunks of `CHUNK_SIZE`, and delete each chunk with bounded
concurrency `DELETE_CONCURRENCY`, resolving only once every chunk delete
has completed. -/
def deleteValues (cfg : Config) (refKey : String) (st : Store) :
    List Op × Option Err × Store :=
  let members := st.smembers refKey
  let deduped := jsSetDedup members
  let r := promiseMapDel cfg DELETE_CONCURRENCY (chunkArray deduped CHUNK_SIZE) st
  (Op.smembers refKey :: r.1, r.2.1, r.2.2)

/-- The `Promise.all(promises)` over the per-reference-key `deleteValues`
calls inside `deleteKeysByReference`: every call runs (already-started
promises are not cancelled), the first error in order is reported. -/
def runDeleteValuesAll (cfg : Config) (refKeys : List String) (st : Store) :
    List Op × Option Err × Store :=
  match refKeys with
  | [] => ([], none, st)
  | rk :: rest =>
    let r1 := deleteValues cfg rk st
    let r2 := runDeleteValuesAll cfg rest r1.2.2
    (r1.1 ++ r2.1, r1.2.1.orElse (fun _ => r2.2.1), r2.2.2)

/-- `deleteKeysByReference(reference)`: resolve the namespace, compute the
per-segment reference keys, run `deleteValues` against each, and only when
all of them succeed delete the reference keys themselves with a single
`this.store.del(...referenceKeys)`; if any `deleteValues` fails, the
reference keys are not deleted and the error propagates. -/
def deleteKeysByReference (cfg : Config) (reference : String) (st : Store) :
    List Op × Option Err × Store :=
  let refKeys := referenceKeysOf cfg reference
  let r := runDeleteValuesAll cfg refKeys st
  match r.2.1 with
  | some err => (r.1, some err, r.2.2)
  | none =>
    if cfg.delFail refKeys then (r.1 ++ [Op.del refKeys], some refKeys, r.2.2)
    else (r.1 ++ [Op.del refKeys], none, r.2.2.del refKeys)

/-- `deleteForeverKeys()`. -/
def deleteForeverKeys (cfg : Config) (st : Store) :
    List Op × Option Err × Store :=
  deleteKeysByReference cfg REFERENCE_KEY_FOREVER st

/-- `deleteStandardKeys()`. -/
def deleteStandardKeys (cfg : Config) (st : Store) :
    List Op × Option Err × Store :=
  deleteKeysByReference cfg REFERENCE_KEY_STANDARD st

/-- The primitive store-wide flush (`super.flush`), an external
collaborator: the whole store is wiped, and its invocation is recorded in
the `flushed` flag. -/
def superFlush (_st : Store) : Store :=
  { primary := [], sets := [], flushed := true }

/-- `flush()`: `Promise.all([this.deleteForeverKeys(),
this.deleteStandardKeys()]).then(() => super.flush())`.  Both class
deletions run to completion; the primitive flush runs only when both
succeeded, otherwise the deletion error is reported. -/
def flush (cfg : Config) (st : Store) : List Op × Option Err × Store :=
  let r1 := deleteForeverKeys cfg st
  let r2 := deleteStandardKeys cfg r1.2.2
  match r1.2.1.orElse (fun _ => r2.2.1) with
  | some err => (r1.1 ++ r2.1, some err, r2.2.2)
  | none => (r1.1 ++ r2.1 ++ [Op.primFlush], none, superFlush r2.2.2)

/-- `set(key, value, ttl)`: pick the reference class from the truthiness of
`ttl`, then concurrently push the reference keys and perform the primitive
`super.set` (an external collaborator, recorded in the trace). -/
def set (cfg : Config) (key value : String) (ttl : Option Int) (st : Store) :
    List Op × Store :=
  let reference :=
    if jsTruthy ttl then REFERENCE_KEY_STANDARD else REFERENCE_KEY_FOREVER
  let r := pushKeys cfg cfg.ns key reference st
  (r.1 ++ [Op.primSet key value ttl], r.2)

/-- `increment(key, value = 1)`: concurrently push the Standard reference
keys and perform the primitive `super.increment` (external, in the trace). -/
def increment (cfg : Config) (key : String) (st : Store) (value : Int := 1) :
    List Op × Store :=
  let r := pushStandardKeys cfg cfg.ns key st
  (r.1 ++ [Op.primIncrement key value], r.2)

/-- `decrement(key, value = 1)`: concurrently push the Standard reference
keys and perform the primitive `super.decrement` (external, in the trace). -/
def decrement (cfg : Config) (key : String) (st : Store) (value : Int := 1) :
    List Op × Store :=
  let r := pushStandardKeys cfg cfg.ns key st
  (r.1 ++ [Op.primDecrement key value], r.2)

/-! ### Concrete instances used by the witnesses -/

/-- A concrete configuration for witnesses: namespace `"a|b"`, a constant
digest, no transport failures. -/
def cfgW : Config :=
  { keyPrefix := "p:", tagPrefix := "t:", sha1 := fun _ => "H", ns := "a|b",
    delFail := fun _ => false }

/-- A concrete store for witnesses: the key `"p:H:k"` indexed under both
segments of `"a|b"` for the Forever class. -/
def stW : Store :=
  { primary := ["p:H:k", "other"],
    sets := [("t:a:forever_ref", ["p:H:k"]), ("t:b:forever_ref", ["p:H:k"])],
    flushed := false }

/-- A concrete store with empty reference sets, for the empty-membership
witness. -/
def stEmptyW : Store := { primary := ["x"], sets := [], flushed := false }

/-- A configuration whose transport fails exactly on the member chunk
`["p:H:k"]`, for the failure-path witnesses. -/
def cfgFailW : Config :=
  { cfgW with delFail := fun ks => ks == ["p:H:k"] }

/-! ### Lemmas about splitting, deduplication and chunking -/

theorem splitChars_ne_nil (sep : Char) (cs : List Char) :
    splitChars sep cs ≠ [] := by
  induction cs with
  | nil => simp [splitChars]
  | cons c rest ih =>
    simp only [splitChars]
    split
    · simp
    · cases h : splitChars sep rest with
      | nil => simp
      | cons g gs => simp

theorem splitNs_ne_nil (ns : String) : splitNs ns ≠ [] := by
  simp [splitNs, splitChars_ne_nil]

theorem dedupGo_mem (y : String) :
    ∀ (fuel : Nat) (l : List String), l.length ≤ fuel →
      (y ∈ dedupGo fuel l ↔ y ∈ l) := by
  intro fuel
  induction fuel with
  | zero =>
    intro l hl
    have : l = [] := List.length_eq_zero.mp (Nat.le_zero.mp hl)
    subst this; simp [dedupGo]
  | succ fuel ih =>
    intro l hl
    cases l with
    | nil => simp [dedupGo]
    | cons x xs =>
      have hlen : (xs.filter (fun y => y != x)).length ≤ fuel := by
        have := List.length_filter_le (fun y => y != x) xs
        have hxs : xs.length ≤ fuel := by
          simpa [Nat.succ_le_succ_iff] using hl
        omega
      simp only [dedupGo, List.mem_cons, ih _ hlen, List.mem_filter,
        bne_iff_ne, ne_eq, decide_not]
      constructor
      · rintro (rfl | ⟨hy, _⟩)
        · exact Or.inl rfl
        · exact Or.inr hy
      · rintro (rfl | hy)
        · exact Or.inl rfl
        · by_cases hxy : y = x
          · exact Or.inl hxy
          · exact Or.inr ⟨hy, by simpa using hxy⟩

theorem jsSetDedup_mem (y : String) (l : List String) :
    y ∈ jsSetDedup l ↔ y ∈ l :=
  dedupGo_mem y l.length l (Nat.le_refl _)

theorem dedupGo_nodup :
    ∀ (fuel : Nat) (l : List String), l.length ≤ fuel →
      (dedupGo fuel l).Nodup := by
  intro fuel
  induction fuel with
  | zero =>
    intro l hl
    have : l = [] := List.length_eq_zero.mp (Nat.le_zero.mp hl)
    subst this; simp [dedupGo]
  | succ fuel ih =>
    intro l hl
    cases l with
    | nil => simp [dedupGo]
    | cons x xs =>
      have hlen : (xs.filter (fun y => y != x)).length ≤ fuel := by
        have := List.length_filter_le (fun y => y != x) xs
        have hxs : xs.length ≤ fuel := by
          simpa [Nat.succ_le_succ_iff] using hl
        omega
      simp only [dedupGo, List.nodup_cons]
      refine ⟨fun hx => ?_, ih _ hlen⟩
      have := (dedupGo_mem x fuel _ hlen).mp hx
      simp [List.mem_filter] at this

theorem jsSetDedup_nodup (l : List String) : (jsSetDedup l).Nodup :=
  dedupGo_nodup l.length l (Nat.le_refl _)

theorem chunksGo_join (m : Nat) :
    ∀ (fuel : Nat) (l : List String), l.length ≤ fuel →
      (chunksGo m fuel l).flatten = l := by
  intro fuel
  induction fuel with
  | zero =>
    intro l hl
    have : l = [] := List.length_eq_zero.mp (Nat.le_zero.mp hl)
    subst this; simp [chunksGo]
  | succ fuel ih =>
    intro l hl
    cases l with
    | nil => simp [chunksGo]
    | cons a l =>
      have hlen : (l.drop m).length ≤ fuel := by
        have h1 : (l.drop m).length = l.length - m := List.length_drop m l
        have h2 : l.length ≤ fuel := by
          simpa [Nat.succ_le_succ_iff] using hl
        omega
      simp only [chunksGo, List.flatten_cons, ih _ hlen, List.take_succ_cons]
      simp [List.take_append_drop]

theorem chunksGo_length (m : Nat) :
    ∀ (fuel : Nat) (l : List String), l.length ≤ fuel →
      (chunksGo m fuel l).length = (l.length + m) / (m + 1) := by
  intro fuel
  induction fuel with
  | zero =>
    intro l hl
    have : l = [] := List.length_eq_zero.mp (Nat.le_zero.mp hl)
    subst this
    simp [chunksGo, Nat.div_eq_of_lt (Nat.lt_succ_self m)]
  | succ fuel ih =>
    intro l hl
    cases l with
    | nil => simp [chunksGo, Nat.div_eq_of_lt (Nat.lt_succ_self m)]
    | cons a l =>
      have hlen : (l.drop m).length ≤ fuel := by
        have h1 : (l.drop m).length = l.length - m := List.length_drop m l
        have h2 : l.length ≤ fuel := by
          simpa [Nat.succ_le_succ_iff] using hl
        omega
      simp only [chunksGo, List.length_cons, ih _ hlen, List.length_drop]
      by_cases hm : m ≤ l.length
      · have h1 : l.length - m + m = l.length := Nat.sub_add_cancel hm
        rw [h1]
        have h2 : l.length + 1 + m = l.length + (m + 1) := by omega
        rw [h2, Nat.add_div_right _ (Nat.succ_pos m)]
      · have h1 : l.length - m = 0 := Nat.sub_eq_zero_of_le (Nat.le_of_not_le hm)
        rw [h1]
        have h2 : m / (m + 1) = 0 := Nat.div_eq_of_lt (Nat.lt_succ_self m)
        have h3 : (l.length + 1 + m) / (m + 1) = 1 := by
          apply Nat.div_eq_of_lt_le
          · omega
          · omega
        simp [h2, h3]

theorem chunksGo_sizes (m : Nat) :
    ∀ (fuel : Nat) (l : List String), l.length ≤ fuel →
      ∀ c ∈ chunksGo m fuel l, c.length ≤ m + 1 := by
  intro fuel
  induction fuel with
  | zero =>
    intro l hl
    have : l = [] := List.length_eq_zero.mp (Nat.le_zero.mp hl)
    subst this; simp [chunksGo]
  | succ fuel ih =>
    intro l hl
    cases l with
    | nil => simp [chunksGo]
    | cons a l =>
      have hlen : (l.drop m).length ≤ fuel := by
        have h1 : (l.drop m).length = l.length - m := List.length_drop m l
        have h2 : l.length ≤ fuel := by
          simpa [Nat.succ_le_succ_iff] using hl
        omega
      intro c hc
      simp only [chunksGo, List.mem_cons] at hc
      rcases hc with rfl | hc
      · simp [List.length_take_le]
      · exact ih _ hlen c hc

theorem chunkArray_join (l : List String) (n : Nat) (hn : 0 < n) :
    (chunkArray l n).flatten = l := by
  cases n with
  | zero => omega
  | succ m => exact chunksGo_join m l.length l (Nat.le_refl _)

theorem chunkArray_length (l : List String) (n : Nat) (hn : 0 < n) :
    (chunkArray l n).length = (l.length + (n - 1)) / n := by
  cases n with
  | zero => omega
  | succ m => simpa using chunksGo_length m l.length l (Nat.le_refl _)

theorem chunkArray_sizes (l : List String) (n : Nat) (hn : 0 < n) :
    ∀ c ∈ chunkArray l n, c.length ≤ n := by
  cases n with
  | zero => omega
  | succ m => exact chunksGo_sizes m l.length l (Nat.le_refl _)

/-! ### Lemmas about `sadd` and reference-set membership -/

theorem lookupSet_nil (k : String) : lookupSet [] k = [] := rfl

theorem lookupSet_cons (a : String) (ms : List String)
    (rest : List (String × List String)) (k : String) :
    lookupSet ((a, ms) :: rest) k = if a = k then ms else lookupSet rest k := by
  simp only [lookupSet, List.find?_cons]
  by_cases h : a = k
  · subst h; simp
  · have hb : (a == k) = false := by simpa using h
    simp [hb, h]

theorem saddOne_cons_eq (k : String) (ms : List String)
    (rest : List (String × List String)) (m : String) :
    saddOne ((k, ms) :: rest) k m
      = (k, if m ∈ ms then ms else ms ++ [m]) :: rest := by
  simp [saddOne]

theorem saddOne_cons_ne (a : String) (ms : List String)
    (rest : List (String × List String)) (k m : String) (h : a ≠ k) :
    saddOne ((a, ms) :: rest) k m = (a, ms) :: saddOne rest k m := by
  simp [saddOne, h]

theorem mem_lookupSet_saddOne_self (sets : List (String × List String))
    (k m : String) : m ∈ lookupSet (saddOne sets k m) k := by
  induction sets with
  | nil => simp [saddOne, lookupSet_cons]
  | cons p rest ih =>
    obtain ⟨k', ms⟩ := p
    by_cases h : k' = k
    · subst h
      rw [saddOne_cons_eq, lookupSet_cons, if_pos rfl]
      by_cases hm : m ∈ ms
      · simp [hm]
      · simp [hm]
    · rw [saddOne_cons_ne _ _ _ _ _ h, lookupSet_cons, if_neg h]
      exact ih

theorem mem_lookupSet_saddOne_of_mem (sets : List (String × List String))
    (k' m' k x : String) (hx : x ∈ lookupSet sets k) :
    x ∈ lookupSet (saddOne sets k' m') k := by
  induction sets with
  | nil => simp [lookupSet] at hx
  | cons p rest ih =>
    obtain ⟨a, ms⟩ := p
    rw [lookupSet_cons] at hx
    by_cases ha : a = k'
    · subst ha
      rw [saddOne_cons_eq, lookupSet_cons]
      by_cases hak : a = k
      · rw [if_pos hak] at hx
        rw [if_pos hak]
        by_cases hm : m' ∈ ms
        · simpa [hm]
        · simp [hm, hx]
      · rw [if_neg hak] at hx
        rw [if_neg hak]
        exact hx
    · rw [saddOne_cons_ne _ _ _ _ _ ha, lookupSet_cons]
      by_cases hak : a = k
      · rw [if_pos hak] at hx
        rw [if_pos hak]
        exact hx
      · rw [if_neg hak] at hx
        rw [if_neg hak]
        exact ih hx

theorem foldl_sadd_mem (adds : List (String × String)) :
    ∀ (st : Store) (k x : String),
      (k, x) ∈ adds ∨ x ∈ st.smembers k →
      x ∈ (adds.foldl (fun s p => s.sadd p.1 p.2) st).smembers k := by
  induction adds with
  | nil =>
    intro st k x h
    rcases h with h | h
    · simp at h
    · simpa using h
  | cons p rest ih =>
    intro st k x h
    obtain ⟨a, b⟩ := p
    simp only [List.foldl_cons]
    apply ih
    rcases h with h | h
    · rcases List.mem_cons.mp h with h | h
      · obtain ⟨rfl, rfl⟩ := Prod.mk.injEq .. |>.mp h
        right
        simpa [Store.sadd, Store.smembers] using
          mem_lookupSet_saddOne_self st.sets k x
      · exact Or.inl h
    · right
      simpa [Store.sadd, Store.smembers] using
        mem_lookupSet_saddOne_of_mem st.sets a b k x h

theorem foldl_sadd_primary (adds : List (String × String)) :
    ∀ st : Store,
      (adds.foldl (fun s p => s.sadd p.1 p.2) st).primary = st.primary := by
  induction adds with
  | nil => intro st; rfl
  | cons p rest ih => intro st; simpa [Store.sadd] using ih _

theorem foldl_sadd_flushed (adds : List (String × String)) :
    ∀ st : Store,
      (adds.foldl (fun s p => s.sadd p.1 p.2) st).flushed = st.flushed := by
  induction adds with
  | nil => intro st; rfl
  | cons p rest ih => intro st; simpa [Store.sadd] using ih _

/-! ### Lemmas about `del` and the chunked deletion pipeline -/

theorem Store.mem_del_primary (st : Store) (ks : List String) (x : String) :
    x ∈ (st.del ks).primary ↔ x ∈ st.primary ∧ ¬ x ∈ ks := by
  simp [Store.del, List.mem_filter]

theorem Store.del_keyAbsent (st : Store) (ks : List String) (k : String)
    (hk : k ∈ ks) : (st.del ks).keyAbsent k := by
  constructor
  · rw [Store.mem_del_primary]
    intro h
    exact h.2 hk
  · intro p hp
    have := (List.mem_filter.mp hp).2
    simp only [decide_eq_true_eq] at this
    intro hpk
    exact this (hpk ▸ hk)

theorem Store.del_flushed (st : Store) (ks : List String) :
    (st.del ks).flushed = st.flushed := rfl

theorem promiseMapDel_trace (cfg : Config) (conc : Nat) :
    ∀ (chunks : List (List String)) (st : Store),
      (promiseMapDel cfg conc chunks st).1 = chunks.map Op.del := by
  intro chunks
  induction chunks with
  | nil => intro st; rfl
  | cons c rest ih => intro st; simp [promiseMapDel, ih]

theorem promiseMapDel_err_none_iff (cfg : Config) (conc : Nat) :
    ∀ (chunks : List (List String)) (st : Store),
      (promiseMapDel cfg conc chunks st).2.1 = none ↔
        ∀ c ∈ chunks, cfg.delFail c = false := by
  intro chunks
  induction chunks with
  | nil => intro st; simp [promiseMapDel]
  | cons c rest ih =>
    intro st
    by_cases hc : cfg.delFail c
    · simp [promiseMapDel, hc, Option.orElse]
    · have hcf : cfg.delFail c = false := by simpa using hc
      simp only [promiseMapDel, hcf, Bool.false_eq_true, if_false,
        Option.orElse, List.mem_cons]
      rw [ih]
      constructor
      · rintro h d (rfl | hd)
        · exact hcf
        · exact h d hd
      · intro h d hd
        exact h d (Or.inr hd)

theorem promiseMapDel_primary_sub (cfg : Config) (conc : Nat) :
    ∀ (chunks : List (List String)) (st : Store) (x : String),
      x ∈ (promiseMapDel cfg conc chunks st).2.2.primary → x ∈ st.primary := by
  intro chunks
  induction chunks with
  | nil => intro st x h; exact h
  | cons c rest ih =>
    intro st x h
    simp only [promiseMapDel] at h
    have := ih _ x h
    by_cases hc : cfg.delFail c
    · rwa [if_pos hc] at this
    · rw [if_neg hc] at this
      exact ((Store.mem_del_primary st c x).mp this).1

theorem promiseMapDel_flushed (cfg : Config) (conc : Nat) :
    ∀ (chunks : List (List String)) (st : Store),
      (promiseMapDel cfg conc chunks st).2.2.flushed = st.flushed := by
  intro chunks
  induction chunks with
  | nil => intro st; rfl
  | cons c rest ih =>
    intro st
    simp only [promiseMapDel, ih]
    split <;> rfl

theorem promiseMapDel_kills (cfg : Config) (conc : Nat) :
    ∀ (chunks : List (List String)) (st : Store),
      (promiseMapDel cfg conc chunks st).2.1 = none →
        ∀ c ∈ chunks, ∀ x ∈ c, ¬ x ∈ (promiseMapDel cfg conc chunks st).2.2.primary := by
  intro chunks
  induction chunks with
  | nil => intro st _ c hc; simp at hc
  | cons c rest ih =>
    intro st hnone d hd x hx
    have hall := (promiseMapDel_err_none_iff cfg conc (c :: rest) st).mp hnone
    have hc : cfg.delFail c = false := hall c (List.mem_cons_self c rest)
    have hrest : (promiseMapDel cfg conc rest (st.del c)).2.1 = none :=
      (promiseMapDel_err_none_iff cfg conc rest _).mpr
        (fun e he => hall e (List.mem_cons_of_mem c he))
    simp only [promiseMapDel, hc, Bool.false_eq_true, if_false]
    rcases List.mem_cons.mp hd with rfl | hd
    · intro hmem
      have := promiseMapDel_primary_sub cfg conc rest (st.del d) x hmem
      exact ((Store.mem_del_primary st d x).mp this).2 hx
    · exact ih (st.del c) hrest d hd x hx

theorem deleteValues_trace (cfg : Config) (rk : String) (st : Store) :
    (deleteValues cfg rk st).1 =
      Op.smembers rk ::
        (chunkArray (jsSetDedup (st.smembers rk)) CHUNK_SIZE).map Op.del := by
  simp [deleteValues, promiseMapDel_trace]

theorem deleteValues_err_none_iff (cfg : Config) (rk : String) (st : Store) :
    (deleteValues cfg rk st).2.1 = none ↔
      ∀ c ∈ chunkArray (jsSetDedup (st.smembers rk)) CHUNK_SIZE,
        cfg.delFail c = false := by
  simp [deleteValues, promiseMapDel_err_none_iff]

theorem deleteValues_primary_sub (cfg : Config) (rk : String) (st : Store)
    (x : String) (h : x ∈ (deleteValues cfg rk st).2.2.primary) :
    x ∈ st.primary :=
  promiseMapDel_primary_sub cfg DELETE_CONCURRENCY _ st x h

theorem deleteValues_flushed (cfg : Config) (rk : String) (st : Store) :
    (deleteValues cfg rk st).2.2.flushed = st.flushed :=
  promiseMapDel_flushed cfg DELETE_CONCURRENCY _ st

theorem deleteValues_kills (cfg : Config) (rk : String) (st : Store)
    (hnone : (deleteValues cfg rk st).2.1 = none) :
    ∀ x ∈ st.smembers rk, ¬ x ∈ (deleteValues cfg rk st).2.2.primary := by
  intro x hx
  have hded : x ∈ jsSetDedup (st.smembers rk) := (jsSetDedup_mem x _).mpr hx
  have hjoin : (chunkArray (jsSetDedup (st.smembers rk)) CHUNK_SIZE).flatten
      = jsSetDedup (st.smembers rk) :=
    chunkArray_join _ CHUNK_SIZE (by simp [CHUNK_SIZE])
  have hchunk : ∃ c ∈ chunkArray (jsSetDedup (st.smembers rk)) CHUNK_SIZE,
      x ∈ c := by
    have : x ∈ (chunkArray (jsSetDedup (st.smembers rk)) CHUNK_SIZE).flatten := by
      rw [hjoin]; exact hded
    simpa [List.mem_flatten] using this
  obtain ⟨c, hc, hxc⟩ := hchunk
  exact promiseMapDel_kills cfg DELETE_CONCURRENCY _ st hnone c hc x hxc

theorem orElse_eq_none_iff (a : Option Err) (f : Unit → Option Err) :
    a.orElse f = none ↔ a = none ∧ f () = none := by
  cases a <;> simp [Option.orElse]

theorem runDeleteValuesAll_primary_sub (cfg : Config) :
    ∀ (rks : List String) (st : Store) (x : String),
      x ∈ (runDeleteValuesAll cfg rks st).2.2.primary → x ∈ st.primary := by
  intro rks
  induction rks with
  | nil => intro st x h; exact h
  | cons rk rest ih =>
    intro st x h
    simp only [runDeleteValuesAll] at h
    exact deleteValues_primary_sub cfg rk st x (ih _ x h)

theorem runDeleteValuesAll_flushed (cfg : Config) :
    ∀ (rks : List String) (st : Store),
      (runDeleteValuesAll cfg rks st).2.2.flushed = st.flushed := by
  intro rks
  induction rks with
  | nil => intro st; rfl
  | cons rk rest ih =>
    intro st
    simp only [runDeleteValuesAll, ih, deleteValues_flushed]

theorem runDeleteValuesAll_kills_head (cfg : Config) (rk : String)
    (rest : List String) (st : Store)
    (hnone : (runDeleteValuesAll cfg (rk :: rest) st).2.1 = none) :
    ∀ x ∈ st.smembers rk,
      ¬ x ∈ (runDeleteValuesAll cfg (rk :: rest) st).2.2.primary := by
  intro x hx
  simp only [runDeleteValuesAll] at hnone ⊢
  have h1 : (deleteValues cfg rk st).2.1 = none :=
    ((orElse_eq_none_iff _ _).mp hnone).1
  intro hmem
  have hsub := runDeleteValuesAll_primary_sub cfg rest _ x hmem
  exact deleteValues_kills cfg rk st h1 x hx hsub

/-- The trace of the chunked deletion pipeline, of `deleteValues` and of
`deleteKeysByReference` consists of `smembers` reads and `del` writes only
(in particular it never contains the primitive store-wide flush). -/
theorem runDeleteValuesAll_trace_shape (cfg : Config) :
    ∀ (rks : List String) (st : Store),
      ∀ op ∈ (runDeleteValuesAll cfg rks st).1,
        (∃ k, op = Op.smembers k) ∨ ∃ ks, op = Op.del ks := by
  intro rks
  induction rks with
  | nil => intro st op h; simp [runDeleteValuesAll] at h
  | cons rk rest ih =>
    intro st op h
    simp only [runDeleteValuesAll, List.mem_append] at h
    rcases h with h | h
    · rw [deleteValues_trace] at h
      rcases List.mem_cons.mp h with rfl | h
      · exact Or.inl ⟨rk, rfl⟩
      · obtain ⟨c, _, rfl⟩ := List.mem_map.mp h
        exact Or.inr ⟨c, rfl⟩
    · exact ih _ op h

theorem deleteKeysByReference_trace_shape (cfg : Config) (reference : String)
    (st : Store) :
    ∀ op ∈ (deleteKeysByReference cfg reference st).1,
      (∃ k, op = Op.smembers k) ∨ ∃ ks, op = Op.del ks := by
  intro op h
  simp only [deleteKeysByReference] at h
  split at h
  · exact runDeleteValuesAll_trace_shape cfg _ st op h
  · split at h <;>
    · simp only [List.mem_append, List.mem_singleton] at h
      rcases h with h | rfl
      · exact runDeleteValuesAll_trace_shape cfg _ st op h
      · exact Or.inr ⟨_, rfl⟩

/-- Success of `deleteKeysByReference` means: every per-segment
`deleteValues` succeeded, the final `del` of the reference keys succeeded,
and the resulting state is the post-member-deletion state with the
reference keys removed. -/
theorem deleteKeysByReference_none (cfg : Config) (reference : String)
    (st : Store)
    (h : (deleteKeysByReference cfg reference st).2.1 = none) :
    (runDeleteValuesAll cfg (referenceKeysOf cfg reference) st).2.1 = none ∧
    cfg.delFail (referenceKeysOf cfg reference) = false ∧
    (deleteKeysByReference cfg reference st).2.2 =
      (runDeleteValuesAll cfg (referenceKeysOf cfg reference) st).2.2.del
        (referenceKeysOf cfg reference) := by
  simp only [deleteKeysByReference] at h ⊢
  split at h
  · simp at h
  · next he =>
    split at h
    · simp at h
    · next hdf =>
      refine ⟨he, by simpa using hdf, ?_⟩
      simp only [he, hdf]
      simp

theorem deleteKeysByReference_flushed (cfg : Config) (reference : String)
    (st : Store) :
    (deleteKeysByReference cfg reference st).2.2.flushed = st.flushed := by
  simp only [deleteKeysByReference]
  split
  · exact runDeleteValuesAll_flushed cfg _ st
  · split
    · exact runDeleteValuesAll_flushed cfg _ st
    · rw [Store.del_flushed]
      exact runDeleteValuesAll_flushed cfg _ st

theorem primFlush_not_mem_deleteKeysByReference (cfg : Config)
    (reference : String) (st : Store) :
    ¬ Op.primFlush ∈ (deleteKeysByReference cfg reference st).1 := by
  intro h
  rcases deleteKeysByReference_trace_shape cfg reference st _ h with
    ⟨k, hk⟩ | ⟨ks, hk⟩ <;> simp at hk

theorem deleteValues_of_smembers_nil (cfg : Config) (rk : String) (st : Store)
    (h : st.smembers rk = []) :
    deleteValues cfg rk st = ([Op.smembers rk], none, st) := by
  simp [deleteValues, h, jsSetDedup, dedupGo, chunkArray, chunksGo,
    promiseMapDel]

theorem runDeleteValuesAll_empty (cfg : Config) :
    ∀ (rks : List String) (st : Store),
      (∀ rk ∈ rks, st.smembers rk = []) →
      runDeleteValuesAll cfg rks st = (rks.map Op.smembers, none, st) := by
  intro rks
  induction rks with
  | nil => intro st _; rfl
  | cons rk rest ih =>
    intro st h
    have h1 : st.smembers rk = [] := h rk (List.mem_cons_self rk rest)
    have hrest := ih st (fun rk' h' => h rk' (List.mem_cons_of_mem rk h'))
    simp [runDeleteValuesAll, deleteValues_of_smembers_nil cfg rk st h1, hrest,
      Option.orElse]

/-! ### Claim theorems -/

/-- **C4**: for every tag segment `s` and class token `C`,
`referenceKey(s, C)` is the concatenation of the configured tag prefix, `s`,
`':'` and the token, the tokens being `'forever_ref'` for Forever and
`'standard_ref'` for Standard; for namespace `"users|premium"` and class
Standard the two Reference Keys are `<prefix>users:standard_ref` and
`<prefix>premium:standard_ref`. -/
theorem referenceKey_concatenation (cfg : Config) (s C : String) :
    referenceKey cfg s C = cfg.tagPrefix ++ s ++ ":" ++ C ∧
    REFERENCE_KEY_FOREVER = "forever_ref" ∧
    REFERENCE_KEY_STANDARD = "standard_ref" ∧
    (splitNs "users|premium").map
        (fun seg => referenceKey cfg seg REFERENCE_KEY_STANDARD) =
      [cfg.tagPrefix ++ "users:standard_ref",
       cfg.tagPrefix ++ "premium:standard_ref"] := by
  refine ⟨rfl, rfl, rfl, ?_⟩
  have hsplit : splitNs "users|premium" = ["users", "premium"] := by decide
  rw [hsplit]
  simp only [List.map_cons, List.map_nil, referenceKey, REFERENCE_KEY_STANDARD]
  have h1 : "users" ++ (":" ++ "standard_ref") = "users:standard_ref" := by
    decide
  have h2 : "premium" ++ (":" ++ "standard_ref") = "premium:standard_ref" := by
    decide
  rw [String.append_assoc, String.append_assoc, h1,
    String.append_assoc, String.append_assoc, h2]

/-- **C5**: the fully-qualified cache key recorded by `pushKeys` into every
per-segment Reference Set is exactly
`<store-key-prefix><sha1(namespace)>:<logical-key>`. -/
theorem fullKey_concatenation_recorded (cfg : Config)
    (ns k reference : String) (st : Store) :
    fullKey cfg ns k = cfg.keyPrefix ++ cfg.sha1 ns ++ ":" ++ k ∧
    (pushKeys cfg ns k reference st).1 =
      [Op.pipelineSadd ((splitNs ns).map
        (fun seg => (referenceKey cfg seg reference,
          cfg.keyPrefix ++ cfg.sha1 ns ++ ":" ++ k)))] ∧
    ∀ seg ∈ splitNs ns,
      (cfg.keyPrefix ++ cfg.sha1 ns ++ ":" ++ k) ∈
        (pushKeys cfg ns k reference st).2.smembers
          (referenceKey cfg seg reference) := by
  refine ⟨rfl, rfl, ?_⟩
  intro seg hseg
  exact foldl_sadd_mem _ st _ _ (Or.inl (List.mem_map.mpr ⟨seg, hseg, rfl⟩))

/-- **C6**: `pushKeys` splits the namespace on `'|'`, performs one
set-union add per segment (duplicate segments included), adding the
fully-qualified cache key to each segment's Reference Set, all submitted as
a single pipeline round trip; it issues no other store operation and leaves
the primary store untouched. -/
theorem pushKeys_single_pipeline (cfg : Config) (ns k reference : String)
    (st : Store) :
    (pushKeys cfg ns k reference st).1 =
      [Op.pipelineSadd ((splitNs ns).map
        (fun seg => (referenceKey cfg seg reference, fullKey cfg ns k)))] ∧
    ((splitNs ns).map
        (fun seg => (referenceKey cfg seg reference, fullKey cfg ns k))).length
      = (splitNs ns).length ∧
    (pushKeys cfg ns k reference st).2.primary = st.primary ∧
    (pushKeys cfg ns k reference st).2.flushed = st.flushed ∧
    ∀ seg ∈ splitNs ns,
      fullKey cfg ns k ∈
        (pushKeys cfg ns k reference st).2.smembers
          (referenceKey cfg seg reference) := by
  refine ⟨rfl, by simp, foldl_sadd_primary _ st, foldl_sadd_flushed _ st, ?_⟩
  intro seg hseg
  exact foldl_sadd_mem _ st _ _ (Or.inl (List.mem_map.mpr ⟨seg, hseg, rfl⟩))

/-- **C9**: `increment` and `decrement` always index the key under the
Standard class — their index operation is exactly `pushKeys` with the
`'standard_ref'` token, whatever the store state (so regardless of how the
key was originally written) — and each also issues the primitive
increment/decrement alongside the index write. -/
theorem increment_decrement_standard_class (cfg : Config) (key : String)
    (v : Int) (st : Store) :
    increment cfg key st v =
      ((pushKeys cfg cfg.ns key REFERENCE_KEY_STANDARD st).1
          ++ [Op.primIncrement key v],
        (pushKeys cfg cfg.ns key REFERENCE_KEY_STANDARD st).2) ∧
    decrement cfg key st v =
      ((pushKeys cfg cfg.ns key REFERENCE_KEY_STANDARD st).1
          ++ [Op.primDecrement key v],
        (pushKeys cfg cfg.ns key REFERENCE_KEY_STANDARD st).2) ∧
    REFERENCE_KEY_STANDARD ≠ REFERENCE_KEY_FOREVER :=
  ⟨rfl, rfl, by decide⟩

/-- **C10**: `set` chooses the expiration class by the truthiness of `ttl`:
`ttl` absent (`none`) or `0` indexes under Forever, and only a nonzero
`ttl` indexes under Standard. -/
theorem set_class_by_truthiness (cfg : Config) (key value : String)
    (ttl : Option Int) (st : Store) :
    set cfg key value ttl st =
      ((pushKeys cfg cfg.ns key
          (if ttl = none ∨ ttl = some 0 then REFERENCE_KEY_FOREVER
           else REFERENCE_KEY_STANDARD) st).1
         ++ [Op.primSet key value ttl],
       (pushKeys cfg cfg.ns key
          (if ttl = none ∨ ttl = some 0 then REFERENCE_KEY_FOREVER
           else REFERENCE_KEY_STANDARD) st).2) := by
  cases ttl with
  | none => simp [set, jsTruthy]
  | some n =>
    by_cases hn : n = 0
    · subst hn; simp [set, jsTruthy]
    · simp [set, jsTruthy, hn]

/-- **C7**: `deleteValues` deduplicates the membership to `M` distinct
members, partitions it into exactly `⌈M / 1000⌉` chunks of at most `1000`
keys whose concatenation is exactly the deduplicated membership, issues one
store delete per chunk (after the one membership read) with the
bounded-concurrency constant `100`, and succeeds exactly when every chunk
delete completes successfully. -/
theorem deleteValues_chunking (cfg : Config) (rk : String) (st : Store) :
    (jsSetDedup (st.smembers rk)).Nodup ∧
    (∀ y, y ∈ jsSetDedup (st.smembers rk) ↔ y ∈ st.smembers rk) ∧
    (chunkArray (jsSetDedup (st.smembers rk)) CHUNK_SIZE).length
      = ((jsSetDedup (st.smembers rk)).length + (CHUNK_SIZE - 1)) / CHUNK_SIZE ∧
    (chunkArray (jsSetDedup (st.smembers rk)) CHUNK_SIZE).flatten
      = jsSetDedup (st.smembers rk) ∧
    (∀ c ∈ chunkArray (jsSetDedup (st.smembers rk)) CHUNK_SIZE,
      c.length ≤ CHUNK_SIZE) ∧
    (deleteValues cfg rk st).1 =
      Op.smembers rk ::
        (chunkArray (jsSetDedup (st.smembers rk)) CHUNK_SIZE).map Op.del ∧
    ((deleteValues cfg rk st).2.1 = none ↔
      ∀ c ∈ chunkArray (jsSetDedup (st.smembers rk)) CHUNK_SIZE,
        cfg.delFail c = false) ∧
    CHUNK_SIZE = 1000 ∧ DELETE_CONCURRENCY = 100 :=
  ⟨jsSetDedup_nodup _, fun y => jsSetDedup_mem y _,
    chunkArray_length _ _ (by norm_num [CHUNK_SIZE]),
    chunkArray_join _ _ (by norm_num [CHUNK_SIZE]),
    chunkArray_sizes _ _ (by norm_num [CHUNK_SIZE]),
    deleteValues_trace cfg rk st, deleteValues_err_none_iff cfg rk st,
    rfl, rfl⟩

/-- **C8**: on an absent or empty Reference Set, `deleteValues` succeeds
after the single membership read with zero deletes and no state change; and
when every per-segment set of a class is empty, `deleteKeysByReference`
still succeeds, its trace being exactly the membership reads followed by the
one reference-key deletion. -/
theorem deleteValues_empty_membership (cfg : Config) (reference : String)
    (st : Store)
    (hempty : ∀ seg ∈ splitNs cfg.ns,
      st.smembers (referenceKey cfg seg reference) = [])
    (hdel : cfg.delFail (referenceKeysOf cfg reference) = false) :
    (∀ rk, st.smembers rk = [] →
      deleteValues cfg rk st = ([Op.smembers rk], none, st)) ∧
    deleteKeysByReference cfg reference st =
      ((referenceKeysOf cfg reference).map Op.smembers
          ++ [Op.del (referenceKeysOf cfg reference)],
        none,
        st.del (referenceKeysOf cfg reference)) := by
  refine ⟨fun rk h => deleteValues_of_smembers_nil cfg rk st h, ?_⟩
  have hall : ∀ rk ∈ referenceKeysOf cfg reference, st.smembers rk = [] := by
    intro rk hrk
    obtain ⟨seg, hseg, rfl⟩ := List.mem_map.mp hrk
    exact hempty seg hseg
  have hrun := runDeleteValuesAll_empty cfg _ st hall
  simp [deleteKeysByReference, hrun, hdel]

/-- **C3**: `deleteKeysByReference` deletes the per-segment Reference Keys
with a single `del`, placed after every per-segment member deletion, and
only when all of those succeeded; if any per-segment member deletion fails,
no reference-key deletion is issued (the trace is exactly the member
deletions) and the first error propagates to the caller. -/
theorem deleteKeysByReference_refkeys_last (cfg : Config) (reference : String)
    (st : Store) :
    ((runDeleteValuesAll cfg (referenceKeysOf cfg reference) st).2.1 = none →
      deleteKeysByReference cfg reference st =
        ((runDeleteValuesAll cfg (referenceKeysOf cfg reference) st).1
            ++ [Op.del (referenceKeysOf cfg reference)],
          if cfg.delFail (referenceKeysOf cfg reference)
          then some (referenceKeysOf cfg reference) else none,
          if cfg.delFail (referenceKeysOf cfg reference)
          then (runDeleteValuesAll cfg (referenceKeysOf cfg reference) st).2.2
          else (runDeleteValuesAll cfg
              (referenceKeysOf cfg reference) st).2.2.del
            (referenceKeysOf cfg reference))) ∧
    (∀ e, (runDeleteValuesAll cfg (referenceKeysOf cfg reference) st).2.1
        = some e →
      deleteKeysByReference cfg reference st =
        ((runDeleteValuesAll cfg (referenceKeysOf cfg reference) st).1,
          some e,
          (runDeleteValuesAll cfg (referenceKeysOf cfg reference) st).2.2)) := by
  constructor
  · intro hnone
    simp only [deleteKeysByReference, hnone]
    by_cases hdf : cfg.delFail (referenceKeysOf cfg reference)
    · simp [hdf]
    · simp [hdf]
  · intro e he
    simp [deleteKeysByReference, he]

/-- **C2**: in `flush()`, the primitive store-wide flush is invoked exactly
when both the Forever-class and the Standard-class deletions succeed; on
failure of either, the other class's deletion still runs (its trace is
present in full), the primitive flush is not invoked, and the call reports
the deletion error (the first one, in class order). -/
theorem flush_primitive_iff_both_classes_succeed (cfg : Config) (st : Store)
    (hfl : st.flushed = false) :
    ((flush cfg st).2.1 = none ↔
      (deleteForeverKeys cfg st).2.1 = none ∧
      (deleteStandardKeys cfg (deleteForeverKeys cfg st).2.2).2.1 = none) ∧
    (flush cfg st).2.1 =
      (deleteForeverKeys cfg st).2.1.orElse
        (fun _ =>
          (deleteStandardKeys cfg (deleteForeverKeys cfg st).2.2).2.1) ∧
    (flush cfg st).1 =
      (deleteForeverKeys cfg st).1
        ++ (deleteStandardKeys cfg (deleteForeverKeys cfg st).2.2).1
        ++ (if (deleteForeverKeys cfg st).2.1 = none ∧
              (deleteStandardKeys cfg
                (deleteForeverKeys cfg st).2.2).2.1 = none
            then [Op.primFlush] else []) ∧
    (Op.primFlush ∈ (flush cfg st).1 ↔
      ((deleteForeverKeys cfg st).2.1 = none ∧
        (deleteStandardKeys cfg (deleteForeverKeys cfg st).2.2).2.1 = none)) ∧
    ((flush cfg st).2.2.flushed = true ↔
      ((deleteForeverKeys cfg st).2.1 = none ∧
        (deleteStandardKeys cfg (deleteForeverKeys cfg st).2.2).2.1
          = none)) := by
  have hnf1 : ¬ Op.primFlush ∈ (deleteForeverKeys cfg st).1 :=
    primFlush_not_mem_deleteKeysByReference cfg _ st
  have hnf2 : ¬ Op.primFlush ∈
      (deleteStandardKeys cfg (deleteForeverKeys cfg st).2.2).1 :=
    primFlush_not_mem_deleteKeysByReference cfg _ _
  have hfl2 : (deleteStandardKeys cfg
      (deleteForeverKeys cfg st).2.2).2.2.flushed = false := by
    show (deleteKeysByReference cfg REFERENCE_KEY_STANDARD
        (deleteKeysByReference cfg REFERENCE_KEY_FOREVER st).2.2).2.2.flushed
      = false
    rw [deleteKeysByReference_flushed, deleteKeysByReference_flushed]
    exact hfl
  cases he1 : (deleteForeverKeys cfg st).2.1 with
  | none =>
    cases he2 : (deleteStandardKeys cfg
        (deleteForeverKeys cfg st).2.2).2.1 with
    | none =>
      refine ⟨?_, ?_, ?_, ?_, ?_⟩ <;>
        simp [flush, he1, he2, Option.orElse, superFlush]
    | some e =>
      refine ⟨?_, ?_, ?_, ?_, ?_⟩ <;>
        simp [flush, he1, he2, Option.orElse, hnf1, hnf2, hfl2]
  | some e =>
    cases he2 : (deleteStandardKeys cfg
        (deleteForeverKeys cfg st).2.2).2.1 with
    | none =>
      refine ⟨?_, ?_, ?_, ?_, ?_⟩ <;>
        simp [flush, he1, he2, Option.orElse, hnf1, hnf2, hfl2]
    | some e2 =>
      refine ⟨?_, ?_, ?_, ?_, ?_⟩ <;>
        simp [flush, he1, he2, Option.orElse, hnf1, hnf2, hfl2]

/-- **C1** (flush completeness): if the fully-qualified cache key of `k` is
a member of every per-segment Reference Set of the namespace for class
token `C`, and `deleteKeysByReference` for `C` succeeds, then afterwards
that fully-qualified cache key is gone from the primary store and every
Reference Key of the namespace for `C` is absent from the store. -/
theorem flushClass_completeness (cfg : Config) (C k : String) (st : Store)
    (hidx : ∀ seg ∈ splitNs cfg.ns,
      fullKey cfg cfg.ns k ∈ st.smembers (referenceKey cfg seg C))
    (hok : (deleteKeysByReference cfg C st).2.1 = none) :
    ¬ fullKey cfg cfg.ns k ∈ (deleteKeysByReference cfg C st).2.2.primary ∧
    ∀ seg ∈ splitNs cfg.ns,
      (deleteKeysByReference cfg C st).2.2.keyAbsent
        (referenceKey cfg seg C) := by
  obtain ⟨hrun, hdf, hstate⟩ := deleteKeysByReference_none cfg C st hok
  obtain ⟨s0, rest, hsplit⟩ :=
    List.exists_cons_of_ne_nil (splitNs_ne_nil cfg.ns)
  constructor
  · rw [hstate, Store.mem_del_primary]
    rintro ⟨hmem, -⟩
    have hrks : referenceKeysOf cfg C
        = referenceKey cfg s0 C :: rest.map (fun seg => referenceKey cfg seg C) := by
      simp [referenceKeysOf, hsplit]
    rw [hrks] at hrun hmem
    exact runDeleteValuesAll_kills_head cfg _ _ st hrun
      (fullKey cfg cfg.ns k)
      (hidx s0 (by rw [hsplit]; exact List.mem_cons_self _ _)) hmem
  · intro seg hseg
    rw [hstate]
    exact Store.del_keyAbsent _ _ _ (List.mem_map.mpr ⟨seg, hseg, rfl⟩)

/-! ### Witnesses: the claim theorems applied at concrete inputs -/

/-- Witness for C1 at the concrete configuration `cfgW` and store `stW`. -/
theorem flushClass_completeness_witness :
    (∀ seg ∈ splitNs cfgW.ns,
      fullKey cfgW cfgW.ns "k" ∈
        stW.smembers (referenceKey cfgW seg REFERENCE_KEY_FOREVER)) ∧
    (deleteKeysByReference cfgW REFERENCE_KEY_FOREVER stW).2.1 = none ∧
    (¬ fullKey cfgW cfgW.ns "k" ∈
        (deleteKeysByReference cfgW REFERENCE_KEY_FOREVER stW).2.2.primary ∧
      ∀ seg ∈ splitNs cfgW.ns,
        (deleteKeysByReference cfgW REFERENCE_KEY_FOREVER stW).2.2.keyAbsent
          (referenceKey cfgW seg REFERENCE_KEY_FOREVER)) :=
  ⟨by decide, by decide,
    flushClass_completeness cfgW REFERENCE_KEY_FOREVER "k" stW
      (by decide) (by decide)⟩

/-- Witness for C2: at `cfgFailW` the Forever-class deletion fails, and the
primitive flush is indeed not invoked. -/
theorem flush_primitive_witness :
    stW.flushed = false ∧
    (Op.primFlush ∈ (flush cfgFailW stW).1 ↔
      ((deleteForeverKeys cfgFailW stW).2.1 = none ∧
        (deleteStandardKeys cfgFailW
          (deleteForeverKeys cfgFailW stW).2.2).2.1 = none)) :=
  ⟨by decide,
    (flush_primitive_iff_both_classes_succeed cfgFailW stW (by decide)).2.2.2.1⟩

/-- Witness for C3: at `cfgFailW` a member deletion fails, and the
reference keys are not deleted while the error propagates. -/
theorem deleteKeysByReference_refkeys_last_witness :
    (runDeleteValuesAll cfgFailW
        (referenceKeysOf cfgFailW REFERENCE_KEY_FOREVER) stW).2.1
      = some ["p:H:k"] ∧
    deleteKeysByReference cfgFailW REFERENCE_KEY_FOREVER stW =
      ((runDeleteValuesAll cfgFailW
          (referenceKeysOf cfgFailW REFERENCE_KEY_FOREVER) stW).1,
        some ["p:H:k"],
        (runDeleteValuesAll cfgFailW
          (referenceKeysOf cfgFailW REFERENCE_KEY_FOREVER) stW).2.2) :=
  ⟨by decide,
    (deleteKeysByReference_refkeys_last cfgFailW REFERENCE_KEY_FOREVER stW).2
      ["p:H:k"] (by decide)⟩

/-- Witness for C5 at segment `"a"` of the namespace `"a|b"`. -/
theorem fullKey_concatenation_recorded_witness :
    "a" ∈ splitNs cfgW.ns ∧
    (cfgW.keyPrefix ++ cfgW.sha1 cfgW.ns ++ ":" ++ "k") ∈
      (pushKeys cfgW cfgW.ns "k" REFERENCE_KEY_STANDARD stEmptyW).2.smembers
        (referenceKey cfgW "a" REFERENCE_KEY_STANDARD) :=
  ⟨by decide,
    (fullKey_concatenation_recorded cfgW cfgW.ns "k" REFERENCE_KEY_STANDARD
      stEmptyW).2.2 "a" (by decide)⟩

/-- Witness for C6 at segment `"b"` of the namespace `"a|b"`. -/
theorem pushKeys_single_pipeline_witness :
    "b" ∈ splitNs cfgW.ns ∧
    fullKey cfgW cfgW.ns "k" ∈
      (pushKeys cfgW cfgW.ns "k" REFERENCE_KEY_FOREVER stEmptyW).2.smembers
        (referenceKey cfgW "b" REFERENCE_KEY_FOREVER) :=
  ⟨by decide,
    (pushKeys_single_pipeline cfgW cfgW.ns "k" REFERENCE_KEY_FOREVER
      stEmptyW).2.2.2.2 "b" (by decide)⟩

/-- Witness for C7: the chunk concatenation property at a concrete set. -/
theorem deleteValues_chunking_witness :
    (chunkArray (jsSetDedup (stW.smembers "t:a:forever_ref"))
        CHUNK_SIZE).flatten
      = jsSetDedup (stW.smembers "t:a:forever_ref") :=
  (deleteValues_chunking cfgW "t:a:forever_ref" stW).2.2.2.1

/-- Witness for C8 at the store with no reference sets. -/
theorem deleteValues_empty_membership_witness :
    (∀ seg ∈ splitNs cfgW.ns,
      stEmptyW.smembers (referenceKey cfgW seg REFERENCE_KEY_STANDARD)
        = []) ∧
    cfgW.delFail (referenceKeysOf cfgW REFERENCE_KEY_STANDARD) = false ∧
    deleteKeysByReference cfgW REFERENCE_KEY_STANDARD stEmptyW =
      ((referenceKeysOf cfgW REFERENCE_KEY_STANDARD).map Op.smembers
          ++ [Op.del (referenceKeysOf cfgW REFERENCE_KEY_STANDARD)],
        none,
        stEmptyW.del (referenceKeysOf cfgW REFERENCE_KEY_STANDARD)) :=
  ⟨by decide, by decide,
    (deleteValues_empty_membership cfgW REFERENCE_KEY_STANDARD stEmptyW
      (by decide) (by decide)).2⟩

/-- Witness for C9 at a concrete key and store. -/
theorem increment_decrement_standard_class_witness :
    increment cfgW "k" stEmptyW 1 =
      ((pushKeys cfgW cfgW.ns "k" REFERENCE_KEY_STANDARD stEmptyW).1
          ++ [Op.primIncrement "k" 1],
        (pushKeys cfgW cfgW.ns "k" REFERENCE_KEY_STANDARD stEmptyW).2) :=
  (increment_decrement_standard_class cfgW "k" 1 stEmptyW).1

end RedisTaggedCache
